import Mathlib

/-!
# Verification of `pipfile-diff` (`src/main.py`)

A shallow embedding of the pipfile-diff GitHub action.  The program parses a
`Pipfile.lock` at two git revisions, diffs the two dependency mappings, renders
a markdown message and upserts a pull-request comment.

Python dictionaries keyed by dependency name are modelled as association lists
`List (String × α)` (insertion ordered, keys unique for every dict the program
actually builds).  Python string operations used by the program are modelled
over `String.data` (the underlying `List Char`), which keeps every definition
kernel-computable:
* `str.strip()`      → `pyStrip` (drop leading/trailing whitespace characters),
* `str.removeprefix` → `stripEqEq` (specialised to the `"=="` operator),
* `str.startswith`   → `strStartsWith`,
* `s[:7]`            → `List.take 7` on the character list,
* `sorted({...})`    → `sortStrs` (insertion sort by code-point order) after
  `List.dedup` (set construction),
* `'\n'.join`        → `joinNL`.
-/

/-- `pre` is a prefix of the character list `s` (model of `str.startswith`). -/
def listStarts : List Char → List Char → Bool
  | _, [] => true
  | [], _ :: _ => false
  | a :: as, b :: bs => a == b && listStarts as bs

/-- Model of Python `s.startswith(p)`. -/
def strStartsWith (s p : String) : Bool :=
  listStarts s.data p.data

/-- Model of Python `s.strip()`: remove leading and trailing whitespace. -/
def pyStrip (s : String) : String :=
  ⟨((s.data.dropWhile Char.isWhitespace).reverse.dropWhile Char.isWhitespace).reverse⟩

/-- Model of Python `s.removeprefix('==')`: strip one leading `"=="` if present. -/
def stripEqEq (s : String) : String :=
  if strStartsWith s "==" then ⟨s.data.drop 2⟩ else s

/-- Model of Python `'\n'.join(lines)`. -/
def joinNL : List String → String
  | [] => ""
  | [x] => x
  | x :: y :: rest => x ++ "\n" ++ joinNL (y :: rest)

/-- Lexicographic `≤` on character lists by code point, as Python compares
strings. -/
def charListLe : List Char → List Char → Bool
  | [], _ => true
  | _ :: _, [] => false
  | a :: as, b :: bs =>
    if a.toNat < b.toNat then true
    else if b.toNat < a.toNat then false
    else charListLe as bs

/-- Lexicographic `≤` on strings by code point (Python string comparison). -/
def strLeb (a b : String) : Bool :=
  charListLe a.data b.data

/-- Insert a string into a (sorted) list, keeping `strLeb` order. -/
def ordInsert (x : String) : List String → List String
  | [] => [x]
  | y :: rest => if strLeb x y then x :: y :: rest else y :: ordInsert x rest

/-- Insertion sort by `strLeb`; on duplicate-free input this is the unique
ascending arrangement, i.e. Python's `sorted` applied to a set. -/
def sortStrs : List String → List String
  | [] => []
  | x :: rest => ordInsert x (sortStrs rest)

/-- Model of Python `sorted({...})`: deduplicate (set), then sort ascending. -/
def sortedDedup (l : List String) : List String :=
  sortStrs l.dedup

/-! ## Data model: lockfile documents and dependency mappings -/

/-- One dependency entry of a `Pipfile.lock` group: the optional `version`
and `ref` fields that `parse_pipfile_lock` reads. -/
structure DepEntry where
  version : Option String
  ref : Option String
deriving DecidableEq

/-- A structurally valid `Pipfile.lock` document: its `"default"` and
`"develop"` groups, each an insertion-ordered mapping name → entry.
A missing/unreadable/malformed lockfile is modelled as `Option.none` at the
use site (`RunEnv`). -/
structure LockData where
  default : List (String × DepEntry)
  develop : List (String × DepEntry)
deriving DecidableEq

/-- Model of Python dict lookup `d[k]` / membership `k in d` for an
insertion-ordered association list. -/
def depLookup {α : Type} (key : String) : List (String × α) → Option α
  | [] => none
  | kv :: rest => if kv.1 = key then some kv.2 else depLookup key rest

/-- Model of Python dict assignment `deps[name] = val`: overwrite the value
in place if the key is present, otherwise append at the end. -/
def insertDep : List (String × String) → String → String → List (String × String)
  | [], name, val => [(name, val)]
  | kv :: rest, name, val =>
    if kv.1 = name then (name, val) :: rest else kv :: insertDep rest name val

/-- The per-entry logic of `parse_pipfile_lock`
(`src/main.py` lines 20–23): if `version` is absent and `ref` is present,
take the first 7 characters of the ref; otherwise read `meta['version']`
(raising `KeyError`, modelled `none`, if it is absent) and strip a leading
`"=="`. -/
def parseDepEntry (meta : DepEntry) : Option String :=
  match meta.version, meta.ref with
  | none, some r => some ⟨r.data.take 7⟩
  | some v, _ => some (stripEqEq v)
  | none, none => none

/-- The inner loop of `parse_pipfile_lock` over one group: process entries in
order, writing each descriptor into the accumulated dict; a failing entry
aborts the whole parse. -/
def parseGroup : List (String × String) → List (String × DepEntry) →
    Option (List (String × String))
  | deps, [] => some deps
  | deps, (name, meta) :: rest =>
    match parseDepEntry meta with
    | some v => parseGroup (insertDep deps name v) rest
    | none => none

/-- `parse_pipfile_lock` (`src/main.py` lines 9–24) applied to an already
loaded document: fold the `"default"` group, then the `"develop"` group, into
one dict. -/
def parsePipfileLock (data : LockData) : Option (List (String × String)) :=
  match parseGroup [] data.default with
  | some d1 => parseGroup d1 data.develop
  | none => none

/-! ## Diff engine -/

/-- The value stored for a changed dependency:
`{'base': version, 'head': version}`. -/
structure Change where
  base : String
  head : String
deriving DecidableEq

/-- `get_added_deps` (`src/main.py` line 35):
`{k: v for k, v in head_deps.items() if k not in base_deps}`. -/
def getAddedDeps (base_deps head_deps : List (String × String)) :
    List (String × String) :=
  head_deps.filter fun kv => (depLookup kv.1 base_deps).isNone

/-- `get_changed_deps` (`src/main.py` lines 38–55): empty if `base_deps` is
empty, else every base entry whose name is also in `head_deps` with a
different version. -/
def getChangedDeps (base_deps head_deps : List (String × String)) :
    List (String × Change) :=
  if base_deps.isEmpty then []
  else
    base_deps.filterMap fun kv =>
      match depLookup kv.1 head_deps with
      | some hv => if kv.2 ≠ hv then some (kv.1, ⟨kv.2, hv⟩) else none
      | none => none

/-- `get_removed_deps` (`src/main.py` line 66):
`{k: v for k, v in base_deps.items() if k not in head_deps}`. -/
def getRemovedDeps (base_deps head_deps : List (String × String)) :
    List (String × String) :=
  base_deps.filter fun kv => (depLookup kv.1 head_deps).isNone

/-- Python dict equality `a == b` for the parsed dependency dicts: the same
keys mapped to the same values (both containments). -/
def dictEq (a b : List (String × String)) : Bool :=
  (a.all fun kv => decide (depLookup kv.1 b = some kv.2)) &&
    (b.all fun kv => decide (depLookup kv.1 a = some kv.2))

/-! ## Message renderer -/

/-- The sentinel marker used to find a previously posted comment. -/
def markerStr : String := "<!-- pipfile-diff -->"

/-- The fixed message head: marker line plus header
(`src/main.py` line 78). -/
def headerStr : String := "<!-- pipfile-diff -->\n\nDependency changes from `Pipfile.lock`:\n\n"

/-- Line format for a changed dependency: `f'{k} {v["base"]} => {v["head"]}'`. -/
def changedLine (k : String) (v : Change) : String :=
  k ++ " " ++ v.base ++ " => " ++ v.head

/-- Line format for an added/removed dependency: `f'{k}=={v}'`. -/
def pinLine (k v : String) : String :=
  k ++ "==" ++ v

/-- One rendered section of `generate_message`
(`f'**{title}**\n```\n{txt.strip()}\n```\n'` where
`txt = '\n'.join(sorted({lines}))`). -/
def sectionBlock (title : String) (lines : List String) : String :=
  "**" ++ title ++ "**\n```\n" ++ pyStrip (joinNL (sortedDedup lines)) ++ "\n```\n"

/-- `generate_message` (`src/main.py` lines 69–89): start from the header and
append the Changed, Added, Removed sections for the non-empty mappings, in
that order. -/
def generateMessage (changed : List (String × Change))
    (added removed : List (String × String)) : String :=
  let msg := headerStr
  let msg := if changed.isEmpty then msg
    else msg ++ sectionBlock "Changed" (changed.map fun kv => changedLine kv.1 kv.2)
  let msg := if added.isEmpty then msg
    else msg ++ sectionBlock "Added" (added.map fun kv => pinLine kv.1 kv.2)
  if removed.isEmpty then msg
  else msg ++ sectionBlock "Removed" (removed.map fun kv => pinLine kv.1 kv.2)

/-- A rendered section exactly as claim C5 words it: deduplicated, sorted,
joined with newline — with no final strip of the joined block. -/
def sectionBlockClaimed (title : String) (lines : List String) : String :=
  "**" ++ title ++ "**\n```\n" ++ joinNL (sortedDedup lines) ++ "\n```\n"

/-- The renderer exactly as claim C5 words it (for comparison with the code):
marker+header, then each section, in fixed order, only if its mapping is
non-empty, its lines deduplicated and sorted and joined with newline. -/
def generateMessageClaimed (changed : List (String × Change))
    (added removed : List (String × String)) : String :=
  headerStr
    ++ (if changed.isEmpty then ""
      else sectionBlockClaimed "Changed" (changed.map fun kv => changedLine kv.1 kv.2))
    ++ (if added.isEmpty then ""
      else sectionBlockClaimed "Added" (added.map fun kv => pinLine kv.1 kv.2))
    ++ (if removed.isEmpty then ""
      else sectionBlockClaimed "Removed" (removed.map fun kv => pinLine kv.1 kv.2))

/-- The renderer as claim C5 must be amended: identical to
`generateMessageClaimed` except that each section's joined block is
additionally stripped of leading/trailing whitespace (the code's
`txt.strip()`), which is the identity on every block whose first line has no
leading and whose last line has no trailing whitespace. -/
def generateMessageAmended (changed : List (String × Change))
    (added removed : List (String × String)) : String :=
  headerStr
    ++ (if changed.isEmpty then ""
      else sectionBlock "Changed" (changed.map fun kv => changedLine kv.1 kv.2))
    ++ (if added.isEmpty then ""
      else sectionBlock "Added" (added.map fun kv => pinLine kv.1 kv.2))
    ++ (if removed.isEmpty then ""
      else sectionBlock "Removed" (removed.map fun kv => pinLine kv.1 kv.2))

/-! ## Comment upsert client -/

/-- An existing pull-request comment: its identifier and body. -/
structure IssueComment where
  id : Nat
  body : String
deriving DecidableEq

/-- The API write performed by `create_comment`: edit an existing comment by
id, or create a new one. -/
inductive CommentAction where
  | edit : Nat → String → CommentAction
  | create : String → CommentAction
deriving DecidableEq

/-- The search loop of `create_comment` (`src/main.py` lines 109–113): the id
of the first comment whose body starts with the sentinel marker. -/
def findMarkedId : List IssueComment → Option Nat
  | [] => none
  | c :: rest =>
    if strStartsWith c.body markerStr then some c.id else findMarkedId rest

/-- The decision of `create_comment` (`src/main.py` lines 116–120).  Python
tests `if existing_issue_id:` — a *truthiness* test, false both for `None`
(no marked comment found) and for the integer `0` (a marked comment whose id
is 0), so in both of those cases a new comment is created. -/
def createComment (comments : List IssueComment) (message : String) :
    CommentAction :=
  match findMarkedId comments with
  | some cid => if cid = 0 then .create message else .edit cid message
  | none => .create message

/-! ## Orchestrator -/

/-- Observable outcome of `run` (`src/main.py` lines 123–152):
* `fatal`: an uncaught exception — the process exits non-zero and
  `create_comment` was never invoked;
* `noChanges`: the `head_deps == base_deps` short-circuit — normal return,
  no diff, no message, no API call;
* `posted msg`: `create_comment(msg)` was invoked with the rendered message. -/
inductive RunResult where
  | fatal : RunResult
  | noChanges : RunResult
  | posted : String → RunResult
deriving DecidableEq

/-- The environment a single run observes: the exit statuses of the three
external VCS commands, and the lockfile document found in the working tree
after each checkout (`none` = missing/unreadable/invalid file, so
`open`/`json.loads`/group access raises). -/
structure RunEnv where
  fetchExit : Int
  checkoutBaseExit : Int
  baseDoc : Option LockData
  checkoutHeadExit : Int
  headDoc : Option LockData

/-- `run` (`src/main.py` lines 123–152).  `subprocess.run` is called without
`check=True`, so the exit statuses of `git fetch` and `git checkout` are
never inspected and cannot influence control flow; the fields
`fetchExit`, `checkoutBaseExit`, `checkoutHeadExit` are therefore (provably)
unused. -/
def run (env : RunEnv) : RunResult :=
  match env.baseDoc with
  | none => .fatal
  | some bdoc =>
    match parsePipfileLock bdoc with
    | none => .fatal
    | some base_deps =>
      match env.headDoc with
      | none => .fatal
      | some hdoc =>
        match parsePipfileLock hdoc with
        | none => .fatal
        | some head_deps =>
          if dictEq head_deps base_deps then .noChanges
          else
            .posted (generateMessage
              (getChangedDeps base_deps head_deps)
              (getAddedDeps base_deps head_deps)
              (getRemovedDeps base_deps head_deps))

/-- The message `create_comment` is invoked with, if any. -/
def commentCall : RunResult → Option String
  | .posted m => some m
  | _ => none

/-- The process exit code at the Python process boundary: an uncaught
exception exits 1, a normal return exits 0. -/
def processExitCode : RunResult → Nat
  | .fatal => 1
  | _ => 0

/-! ## Concrete inputs for witnesses and counterexamples -/

/-- A registry dependency entry pinned to `version = v`. -/
def entryV (v : String) : DepEntry := ⟨some v, none⟩

/-- A lockfile whose default group pins `foo` to version `v`. -/
def docFoo (v : String) : LockData := ⟨[("foo", entryV v)], []⟩

/-- A run in which all three VCS commands exit 1 but both lockfile parses
succeed with different dependency mappings. -/
def envVcsFail : RunEnv := ⟨1, 1, some (docFoo "1.0.0"), 1, some (docFoo "2.0.0")⟩

/-- A run in which both parses succeed with equal mappings. -/
def envNoChange : RunEnv := ⟨0, 0, some (docFoo "1.0.0"), 0, some (docFoo "1.0.0")⟩

/-- A run whose base lockfile is missing/invalid. -/
def envBadLock : RunEnv := ⟨0, 0, none, 0, some (docFoo "1.0.0")⟩

/-- A run that posts a changed-dependency message. -/
def envPost : RunEnv := ⟨0, 0, some (docFoo "1.0.0"), 0, some (docFoo "2.0.0")⟩

/-- A lockfile in which both groups pin `a`, with different versions. -/
def dataAB : LockData := ⟨[("a", entryV "1")], [("a", entryV "2")]⟩

/-- The message `run envPost` posts: `foo` changed from 1.0.0 to 2.0.0. -/
def msgFooChanged : String :=
  "<!-- pipfile-diff -->\n\nDependency changes from `Pipfile.lock`:\n\n**Changed**\n```\nfoo 1.0.0 => 2.0.0\n```\n"

/-! ## Helper lemmas -/

theorem charListLe_total (a b : List Char) :
    charListLe a b = true ∨ charListLe b a = true := by
  induction a generalizing b with
  | nil => exact Or.inl rfl
  | cons x as ih =>
    cases b with
    | nil => exact Or.inr rfl
    | cons y bs =>
      simp only [charListLe]
      by_cases hxy : x.toNat < y.toNat
      · exact Or.inl (by rw [if_pos hxy])
      · by_cases hyx : y.toNat < x.toNat
        · exact Or.inr (by rw [if_pos hyx])
        · rcases ih bs with h | h
          · exact Or.inl (by rw [if_neg hxy, if_neg hyx]; exact h)
          · exact Or.inr (by rw [if_neg hyx, if_neg hxy]; exact h)

theorem charListLe_trans :
    ∀ {a b c : List Char}, charListLe a b = true → charListLe b c = true →
      charListLe a c = true := by
  intro a
  induction a with
  | nil => intro b c _ _; rfl
  | cons x as ih =>
    intro b c hab hbc
    cases b with
    | nil => simp [charListLe] at hab
    | cons y bs =>
      cases c with
      | nil => simp [charListLe] at hbc
      | cons z cs =>
        simp only [charListLe] at hab hbc ⊢
        by_cases hxy : x.toNat < y.toNat
        · by_cases hyz : y.toNat < z.toNat
          · rw [if_pos (by omega)]
          · rw [if_neg hyz] at hbc
            by_cases hzy : z.toNat < y.toNat
            · rw [if_pos hzy] at hbc
              exact absurd hbc (by simp)
            · rw [if_pos (by omega)]
        · by_cases hyx : y.toNat < x.toNat
          · rw [if_neg hxy, if_pos hyx] at hab
            exact absurd hab (by simp)
          · rw [if_neg hxy, if_neg hyx] at hab
            by_cases hyz : y.toNat < z.toNat
            · rw [if_pos (by omega)]
            · by_cases hzy : z.toNat < y.toNat
              · rw [if_neg hyz, if_pos hzy] at hbc
                exact absurd hbc (by simp)
              · rw [if_neg hyz, if_neg hzy] at hbc
                rw [if_neg (by omega), if_neg (by omega)]
                exact ih hab hbc

theorem strLeb_total (a b : String) : strLeb a b = true ∨ strLeb b a = true :=
  charListLe_total a.data b.data

theorem strLeb_trans {a b c : String} (hab : strLeb a b = true)
    (hbc : strLeb b c = true) : strLeb a c = true :=
  charListLe_trans hab hbc

theorem ordInsert_perm (x : String) (l : List String) :
    (ordInsert x l).Perm (x :: l) := by
  induction l with
  | nil => exact List.Perm.refl _
  | cons y rest ih =>
    unfold ordInsert
    by_cases h : strLeb x y = true
    · rw [if_pos h]
    · rw [if_neg h]
      exact (ih.cons y).trans (List.Perm.swap x y rest)

/-- `sortStrs` permutes its input (so it loses and invents no line). -/
theorem sortStrs_perm (l : List String) : (sortStrs l).Perm l := by
  induction l with
  | nil => exact List.Perm.refl _
  | cons x rest ih => exact (ordInsert_perm x (sortStrs rest)).trans (ih.cons x)

theorem ordInsert_pairwise {x : String} {l : List String}
    (hs : l.Pairwise (fun a b => strLeb a b = true)) :
    (ordInsert x l).Pairwise (fun a b => strLeb a b = true) := by
  induction l with
  | nil => simp [ordInsert]
  | cons y rest ih =>
    rw [List.pairwise_cons] at hs
    unfold ordInsert
    by_cases h : strLeb x y = true
    · rw [if_pos h]
      refine List.pairwise_cons.mpr ⟨?_, List.pairwise_cons.mpr hs⟩
      intro z hz
      rcases List.mem_cons.mp hz with rfl | hz2
      · exact h
      · exact strLeb_trans h (hs.1 z hz2)
    · rw [if_neg h]
      refine List.pairwise_cons.mpr ⟨?_, ih hs.2⟩
      intro z hz
      have hz2 := (ordInsert_perm x rest).mem_iff.mp hz
      rcases List.mem_cons.mp hz2 with rfl | hz3
      · rcases strLeb_total z y with hzy | hyz
        · exact absurd hzy h
        · exact hyz
      · exact hs.1 z hz3

/-- `sortStrs` sorts ascending by the lexicographic code-point order, so it is
a faithful model of Python's `sorted`. -/
theorem sortStrs_pairwise (l : List String) :
    (sortStrs l).Pairwise (fun a b => strLeb a b = true) := by
  induction l with
  | nil => exact List.Pairwise.nil
  | cons x rest ih => exact ordInsert_pairwise ih

/-- The rendered header begins with the very marker `create_comment` searches
comment bodies for. -/
theorem headerStr_has_marker : strStartsWith headerStr markerStr = true := by
  decide

theorem str_ext {s t : String} (h : s.data = t.data) : s = t := by
  cases s; cases t; exact congrArg String.mk h

theorem strData_append (a b : String) : (a ++ b).data = a.data ++ b.data := by
  cases a; cases b; rfl

theorem strData_empty : ("" : String).data = [] := rfl

theorem strAppend_assoc (a b c : String) : a ++ b ++ c = a ++ (b ++ c) :=
  str_ext (by simp [strData_append])

theorem strAppend_empty (s : String) : s ++ "" = s :=
  str_ext (by simp [strData_append, strData_empty])

theorem strEmpty_append (s : String) : "" ++ s = s :=
  str_ext (by simp [strData_append, strData_empty])

theorem depLookup_mem {α : Type} {k : String} {v : α} :
    ∀ {l : List (String × α)}, depLookup k l = some v → (k, v) ∈ l := by
  intro l
  induction l with
  | nil => intro h; simp [depLookup] at h
  | cons kv rest ih =>
    intro h
    by_cases hk : kv.1 = k
    · simp [depLookup, hk] at h
      subst h
      subst hk
      exact List.mem_cons_self _ _
    · simp [depLookup, hk] at h
      exact List.mem_cons_of_mem _ (ih h)

theorem depLookup_eq_none_of_not_mem_keys {α : Type} {k : String} :
    ∀ {l : List (String × α)}, k ∉ l.map Prod.fst → depLookup k l = none := by
  intro l
  induction l with
  | nil => intro _; rfl
  | cons kv rest ih =>
    intro h
    simp only [List.map_cons, List.mem_cons] at h
    push_neg at h
    have hk : ¬ kv.1 = k := fun hq => h.1 hq.symm
    simp [depLookup, hk, ih h.2]

theorem mem_depLookup {α : Type} {k : String} {v : α} :
    ∀ {l : List (String × α)}, (l.map Prod.fst).Nodup → (k, v) ∈ l →
      depLookup k l = some v := by
  intro l
  induction l with
  | nil => intro _ h; simp at h
  | cons kv rest ih =>
    intro hnd hmem
    simp only [List.map_cons, List.nodup_cons] at hnd
    rcases List.mem_cons.mp hmem with heq | htail
    · subst heq; simp [depLookup]
    · have hk : kv.1 ≠ k := by
        intro hq
        exact hnd.1 (hq ▸ List.mem_map_of_mem Prod.fst htail)
      simp [depLookup, hk, ih hnd.2 htail]

theorem depLookup_insertDep_self {n v : String} :
    ∀ (d : List (String × String)), depLookup n (insertDep d n v) = some v := by
  intro d
  induction d with
  | nil => simp [insertDep, depLookup]
  | cons kv rest ih =>
    by_cases hk : kv.1 = n
    · simp [insertDep, hk, depLookup]
    · simp [insertDep, hk, depLookup, ih]

theorem depLookup_insertDep_ne {m n v : String} (hmn : m ≠ n) :
    ∀ (d : List (String × String)), depLookup m (insertDep d n v) = depLookup m d := by
  intro d
  have hnm : ¬ n = m := fun h => hmn h.symm
  induction d with
  | nil => simp [insertDep, depLookup, hnm]
  | cons kv rest ih =>
    by_cases hk : kv.1 = n
    · have hkm : ¬ kv.1 = m := fun h => hmn (h ▸ hk)
      simp [insertDep, hk, depLookup, hnm, hkm]
    · simp only [insertDep, hk, if_false]
      by_cases hm : kv.1 = m
      · simp [depLookup, hm]
      · simp [depLookup, hm, ih]

theorem mem_keys_insertDep {m n v : String} :
    ∀ {d : List (String × String)}, m ∈ (insertDep d n v).map Prod.fst →
      m ∈ d.map Prod.fst ∨ m = n := by
  intro d
  induction d with
  | nil => intro h; simp [insertDep] at h; exact Or.inr h
  | cons kv rest ih =>
    intro h
    by_cases hk : kv.1 = n
    · simp only [insertDep, hk, if_true, List.map_cons, List.mem_cons] at h
      rcases h with h | h
      · exact Or.inr h
      · exact Or.inl (List.mem_cons_of_mem _ h)
    · simp only [insertDep, hk, if_false, List.map_cons, List.mem_cons] at h
      rcases h with h | h
      · exact Or.inl (List.mem_cons.mpr (Or.inl h))
      · rcases ih h with h' | h'
        · exact Or.inl (List.mem_cons_of_mem _ h')
        · exact Or.inr h'

theorem nodupKeys_insertDep {n v : String} :
    ∀ {d : List (String × String)}, (d.map Prod.fst).Nodup →
      ((insertDep d n v).map Prod.fst).Nodup := by
  intro d
  induction d with
  | nil => intro _; simp [insertDep]
  | cons kv rest ih =>
    intro hnd
    simp only [List.map_cons, List.nodup_cons] at hnd
    by_cases hk : kv.1 = n
    · simp only [insertDep, hk, if_true, List.map_cons, List.nodup_cons]
      exact ⟨hk ▸ hnd.1, hnd.2⟩
    · simp only [insertDep, hk, if_false, List.map_cons, List.nodup_cons]
      refine ⟨fun hmem => ?_, ih hnd.2⟩
      rcases mem_keys_insertDep hmem with h' | h'
      · exact hnd.1 h'
      · exact hk h'

theorem parseGroup_lookup_not_mem {n : String} :
    ∀ {grp : List (String × DepEntry)} {deps out : List (String × String)},
      parseGroup deps grp = some out → depLookup n grp = none →
      depLookup n out = depLookup n deps := by
  intro grp
  induction grp with
  | nil =>
    intro deps out hp _
    simp [parseGroup] at hp
    subst hp; rfl
  | cons kv rest ih =>
    intro deps out hp hl
    obtain ⟨name, meta⟩ := kv
    by_cases hk : name = n
    · simp [depLookup, hk] at hl
    · simp only [depLookup, hk, if_false] at hl
      simp only [parseGroup] at hp
      cases hpe : parseDepEntry meta with
      | none => rw [hpe] at hp; simp at hp
      | some v =>
        rw [hpe] at hp
        simp only at hp
        rw [ih hp hl, depLookup_insertDep_ne (fun h => hk h.symm)]

theorem parseGroup_lookup_mem {n : String} {m : DepEntry} :
    ∀ {grp : List (String × DepEntry)} {deps out : List (String × String)},
      parseGroup deps grp = some out → (grp.map Prod.fst).Nodup →
      depLookup n grp = some m → depLookup n out = parseDepEntry m := by
  intro grp
  induction grp with
  | nil => intro deps out _ _ hl; simp [depLookup] at hl
  | cons kv rest ih =>
    intro deps out hp hnd hl
    obtain ⟨name, meta⟩ := kv
    simp only [List.map_cons, List.nodup_cons] at hnd
    simp only [parseGroup] at hp
    cases hpe : parseDepEntry meta with
    | none => rw [hpe] at hp; simp at hp
    | some v =>
      rw [hpe] at hp
      simp only at hp
      by_cases hk : name = n
      · simp only [depLookup, hk, if_true] at hl
        injection hl with hm
        have hrest : depLookup n rest = none :=
          depLookup_eq_none_of_not_mem_keys (hk ▸ hnd.1)
        rw [parseGroup_lookup_not_mem hp hrest]
        rw [show n = name from hk.symm, depLookup_insertDep_self deps, ← hm, hpe]
      · simp only [depLookup, hk, if_false] at hl
        exact ih hp hnd.2 hl

theorem parseGroup_nodupKeys :
    ∀ {grp : List (String × DepEntry)} {deps out : List (String × String)},
      parseGroup deps grp = some out → (deps.map Prod.fst).Nodup →
      (out.map Prod.fst).Nodup := by
  intro grp
  induction grp with
  | nil => intro deps out hp hnd; simp [parseGroup] at hp; exact hp ▸ hnd
  | cons kv rest ih =>
    intro deps out hp hnd
    obtain ⟨name, meta⟩ := kv
    simp only [parseGroup] at hp
    cases hpe : parseDepEntry meta with
    | none => rw [hpe] at hp; simp at hp
    | some v =>
      rw [hpe] at hp
      simp only at hp
      exact ih hp (nodupKeys_insertDep hnd)

theorem parsePipfileLock_nodupKeys {data : LockData}
    {deps : List (String × String)} (hp : parsePipfileLock data = some deps) :
    (deps.map Prod.fst).Nodup := by
  unfold parsePipfileLock at hp
  cases h1 : parseGroup [] data.default with
  | none => rw [h1] at hp; simp at hp
  | some d1 =>
    rw [h1] at hp
    exact parseGroup_nodupKeys hp (parseGroup_nodupKeys h1 (by simp))

theorem exists_of_all_eq_false {α : Type} {p : α → Bool} :
    ∀ {l : List α}, l.all p = false → ∃ x ∈ l, p x = false := by
  intro l
  induction l with
  | nil => intro h; simp at h
  | cons a rest ih =>
    intro h
    simp only [List.all_cons, Bool.and_eq_false_iff] at h
    rcases h with h | h
    · exact ⟨a, List.mem_cons_self _ _, h⟩
    · obtain ⟨x, hx, hpx⟩ := ih h
      exact ⟨x, List.mem_cons_of_mem _ hx, hpx⟩

theorem sectionBlock_ne_empty (t : String) (l : List String) :
    sectionBlock t l ≠ "" := by
  intro h
  have hd := congrArg String.data h
  rw [strData_empty] at hd
  simp only [sectionBlock, strData_append] at hd
  simp at hd

theorem generateMessage_structure (changed : List (String × Change))
    (added removed : List (String × String)) :
    generateMessage changed added removed = generateMessageAmended changed added removed := by
  unfold generateMessage generateMessageAmended
  cases hc : changed.isEmpty <;> cases ha : added.isEmpty <;>
    cases hr : removed.isEmpty <;>
    simp [strAppend_assoc, strAppend_empty]

theorem strAppend_eq_empty_iff (a b : String) : a ++ b = "" ↔ a = "" ∧ b = "" := by
  constructor
  · intro h
    have hd := congrArg String.data h
    rw [strData_append, strData_empty] at hd
    obtain ⟨h1, h2⟩ := List.append_eq_nil.mp hd
    exact ⟨str_ext (by rw [h1, strData_empty]),
      str_ext (by rw [h2, strData_empty])⟩
  · rintro ⟨h1, h2⟩
    rw [h1, h2]
    exact strAppend_empty ""

theorem strAppend_right_eq_self {a b : String} (h : a ++ b = a) : b = "" := by
  have hd := congrArg String.data h
  rw [strData_append] at hd
  have h2 : a.data ++ b.data = a.data ++ [] := by rw [hd, List.append_nil]
  have hb := List.append_cancel_left h2
  exact str_ext (by rw [hb, strData_empty])

theorem diff_lists_not_all_empty (base head : List (String × String))
    (hhn : (head.map Prod.fst).Nodup) (hne : dictEq head base = false) :
    ¬(getChangedDeps base head = [] ∧ getAddedDeps base head = [] ∧
      getRemovedDeps base head = []) := by
  rintro ⟨hch, had, hrm⟩
  unfold dictEq at hne
  cases hA : (head.all fun kv => decide (depLookup kv.1 base = some kv.2)) with
  | false =>
    obtain ⟨⟨k, v⟩, hkv, hp⟩ := exists_of_all_eq_false hA
    rw [decide_eq_false_iff_not] at hp
    cases hlk : depLookup k base with
    | none =>
      have hmem : (k, v) ∈ getAddedDeps base head := by
        unfold getAddedDeps
        exact List.mem_filter.mpr ⟨hkv, by simp [hlk]⟩
      rw [had] at hmem
      simp at hmem
    | some bv =>
      have hbv : bv ≠ v := fun h => hp (by rw [hlk, h])
      have hmemb : (k, bv) ∈ base := depLookup_mem hlk
      have hlkh : depLookup k head = some v := mem_depLookup hhn hkv
      have hmem : (k, Change.mk bv v) ∈ getChangedDeps base head := by
        unfold getChangedDeps
        have hbe : base.isEmpty = false := by
          cases base
          · simp at hmemb
          · rfl
        rw [if_neg (by simp [hbe])]
        exact List.mem_filterMap.mpr ⟨(k, bv), hmemb, by simp [hlkh, hbv]⟩
      rw [hch] at hmem
      simp at hmem
  | true =>
    rw [hA] at hne
    simp only [Bool.true_and] at hne
    obtain ⟨⟨k, v⟩, hkv, hp⟩ := exists_of_all_eq_false hne
    rw [decide_eq_false_iff_not] at hp
    cases hlk : depLookup k head with
    | none =>
      have hmem : (k, v) ∈ getRemovedDeps base head := by
        unfold getRemovedDeps
        exact List.mem_filter.mpr ⟨hkv, by simp [hlk]⟩
      rw [hrm] at hmem
      simp at hmem
    | some hv =>
      have hhv : v ≠ hv := fun h => hp (by rw [hlk, h])
      have hmem : (k, Change.mk v hv) ∈ getChangedDeps base head := by
        unfold getChangedDeps
        have hbe : base.isEmpty = false := by
          cases base
          · simp at hkv
          · rfl
        rw [if_neg (by simp [hbe])]
        exact List.mem_filterMap.mpr ⟨(k, v), hkv, by simp [hlk, hhv]⟩
      rw [hch] at hmem
      simp at hmem

theorem run_posted_inversion {env : RunEnv} {msg : String}
    (hrun : run env = .posted msg) :
    ∃ base head,
      (∃ bdoc, env.baseDoc = some bdoc ∧ parsePipfileLock bdoc = some base) ∧
      (∃ hdoc, env.headDoc = some hdoc ∧ parsePipfileLock hdoc = some head) ∧
      dictEq head base = false ∧
      msg = generateMessage (getChangedDeps base head) (getAddedDeps base head)
        (getRemovedDeps base head) := by
  unfold run at hrun
  split at hrun
  · exact RunResult.noConfusion hrun
  rename_i bdoc hb
  split at hrun
  · exact RunResult.noConfusion hrun
  rename_i base hpb
  split at hrun
  · exact RunResult.noConfusion hrun
  rename_i hdoc hh
  split at hrun
  · exact RunResult.noConfusion hrun
  rename_i head hph
  split at hrun
  · exact RunResult.noConfusion hrun
  rename_i hne
  injection hrun with hmsg
  exact ⟨base, head, ⟨bdoc, hb, hpb⟩, ⟨hdoc, hh, hph⟩, by simpa using hne, hmsg.symm⟩

/-! ## Claim theorems -/

/-- C1 (amended).  The claim states that a non-zero exit of the git fetch or
checkout aborts the run; in fact `run` never inspects those exit statuses
(`subprocess.run` is called without `check=True`), so the outcome of a run is
entirely independent of the three VCS exit codes: any two environments that
agree on the observed lockfile documents produce the same result, whatever
the commands' exit statuses. -/
theorem run_ignores_vcs_exit_status
    (f cb ch f2 cb2 ch2 : Int) (b h : Option LockData) :
    run ⟨f, cb, b, ch, h⟩ = run ⟨f2, cb2, b, ch2, h⟩ := rfl

/-- C1 (counterexample).  A run in which `git fetch` and both `git checkout`
invocations exit 1 is not aborted: both parses succeed, the mappings differ,
a comment is posted and the process exits 0 — contradicting the claim that a
VCS command failure is fatal, exits non-zero, and posts no comment. -/
theorem vcs_failure_still_posts_comment :
    envVcsFail.fetchExit ≠ 0 ∧ envVcsFail.checkoutBaseExit ≠ 0 ∧
    envVcsFail.checkoutHeadExit ≠ 0 ∧
    processExitCode (run envVcsFail) = 0 ∧
    commentCall (run envVcsFail) ≠ none := by decide

/-- C2.  If the two parsed mappings are equal (Python dict equality), `run`
takes the short-circuit: it terminates successfully (exit 0) with no diff, no
rendered message and no comment API call. -/
theorem run_short_circuit_on_equal_deps
    (env : RunEnv) (bdoc hdoc : LockData) (base head : List (String × String))
    (hb : env.baseDoc = some bdoc) (hpb : parsePipfileLock bdoc = some base)
    (hh : env.headDoc = some hdoc) (hph : parsePipfileLock hdoc = some head)
    (heq : dictEq head base = true) :
    run env = .noChanges ∧ commentCall (run env) = none ∧
    processExitCode (run env) = 0 := by
  have hrun : run env = .noChanges := by
    obtain ⟨fe, cbe, obd, che, ohd⟩ := env
    dsimp only at hb hh
    subst hb
    subst hh
    simp [run, hpb, hph, heq]
  exact ⟨hrun, by rw [hrun]; rfl, by rw [hrun]; rfl⟩

/-- C2 (witness). -/
theorem run_short_circuit_on_equal_deps_witness :
    run envNoChange = .noChanges ∧ commentCall (run envNoChange) = none ∧
    processExitCode (run envNoChange) = 0 :=
  run_short_circuit_on_equal_deps envNoChange (docFoo "1.0.0") (docFoo "1.0.0")
    [("foo", "1.0.0")] [("foo", "1.0.0")] rfl rfl rfl rfl (by decide)

/-- C3.  `get_changed_deps` contains exactly the entries for keys present in
both mappings with different versions (exact string inequality), each mapped
to the pair of base and head versions; and it is empty whenever the base
mapping is empty, for any head. -/
theorem get_changed_deps_characterization
    (base head : List (String × String)) (hh : (head.map Prod.fst).Nodup) :
    (∀ k bv hv, (k, Change.mk bv hv) ∈ getChangedDeps base head ↔
      ((k, bv) ∈ base ∧ (k, hv) ∈ head ∧ bv ≠ hv)) ∧
    (∀ head2, getChangedDeps [] head2 = []) := by
  constructor
  · intro k bv hv
    constructor
    · intro hmem
      unfold getChangedDeps at hmem
      by_cases hbe : base.isEmpty
      · rw [if_pos hbe] at hmem
        simp at hmem
      · rw [if_neg hbe] at hmem
        obtain ⟨kv, hkv, hf⟩ := List.mem_filterMap.mp hmem
        split at hf
        · rename_i hv2 hlk
          split at hf
          · rename_i hne
            injection hf with hf
            rw [Prod.ext_iff] at hf
            obtain ⟨hf1, hf2⟩ := hf
            rw [Change.mk.injEq] at hf2
            obtain ⟨hf2, hf3⟩ := hf2
            refine ⟨?_, ?_, ?_⟩
            · have hkvb : kv = (k, bv) := Prod.ext hf1 hf2
              exact hkvb ▸ hkv
            · rw [hf1, hf3] at hlk
              exact depLookup_mem hlk
            · rw [← hf2, ← hf3]
              exact hne
          · exact Option.noConfusion hf
        · exact Option.noConfusion hf
    · rintro ⟨hb, hhm, hne⟩
      have hlk : depLookup k head = some hv := mem_depLookup hh hhm
      unfold getChangedDeps
      have hbe : base.isEmpty = false := by
        cases base
        · simp at hb
        · rfl
      rw [if_neg (by simp [hbe])]
      exact List.mem_filterMap.mpr ⟨(k, bv), hb, by simp [hlk, hne]⟩
  · intro head2
    rfl

/-- C3 (witness). -/
theorem get_changed_deps_characterization_witness :
    (("a", Change.mk "1" "2") ∈ getChangedDeps [("a", "1"), ("b", "3")] [("a", "2")]) ∧
    getChangedDeps [] [("x", "1")] = [] :=
  ⟨((get_changed_deps_characterization [("a", "1"), ("b", "3")] [("a", "2")]
      (by decide)).1 "a" "1" "2").mpr ⟨by decide, by decide, by decide⟩,
   (get_changed_deps_characterization [("a", "1"), ("b", "3")] [("a", "2")]
      (by decide)).2 [("x", "1")]⟩

/-- C4 (amended).  `create_comment` edits in place the first comment whose
body starts with the sentinel marker, preserving its identifier, and creates
no new comment — provided that comment's identifier is non-zero.  Because
Python tests `if existing_issue_id:` (truthiness, not `is not None`), a found
identifier equal to 0 falls through to comment creation, exactly as the
not-found case does. -/
theorem create_comment_upsert_behavior (cs : List IssueComment) (msg : String) :
    (findMarkedId cs = (cs.find? fun c => strStartsWith c.body markerStr).map IssueComment.id) ∧
    (∀ cid, findMarkedId cs = some cid → cid ≠ 0 →
      createComment cs msg = .edit cid msg) ∧
    (findMarkedId cs = none → createComment cs msg = .create msg) ∧
    (findMarkedId cs = some 0 → createComment cs msg = .create msg) := by
  refine ⟨?_, ?_, ?_, ?_⟩
  · induction cs with
    | nil => rfl
    | cons c rest ih =>
      by_cases hmk : strStartsWith c.body markerStr
      · simp [findMarkedId, hmk, List.find?]
      · simp only [findMarkedId, hmk, if_false, ih]
        simp [List.find?, hmk]
  · intro cid hf hne
    unfold createComment
    rw [hf]
    simp [hne]
  · intro hf
    unfold createComment
    rw [hf]
  · intro hf
    unfold createComment
    rw [hf]
    simp

/-- C4 (witness). -/
theorem create_comment_upsert_behavior_witness :
    createComment [⟨5, "<!-- pipfile-diff --> old"⟩] "new" = CommentAction.edit 5 "new" ∧
    createComment [] "new" = CommentAction.create "new" :=
  ⟨(create_comment_upsert_behavior [⟨5, "<!-- pipfile-diff --> old"⟩] "new").2.1 5
      (by decide) (by decide),
   (create_comment_upsert_behavior [] "new").2.2.1 rfl⟩

/-- C4 (counterexample).  A pull request whose only comment starts with the
sentinel marker but has identifier 0: the claim says it must be edited in
place and no comment created, yet `create_comment` creates a new one, because
`if existing_issue_id:` is false for the integer 0. -/
theorem create_comment_zero_id_creates_duplicate :
    findMarkedId [⟨0, "<!-- pipfile-diff --> old"⟩] = some 0 ∧
    createComment [⟨0, "<!-- pipfile-diff --> old"⟩] "new" = CommentAction.create "new" := by
  decide

/-- C5 (amended).  `generate_message` equals the renderer described by the
claim with one addition: after deduplicating, sorting and joining a section's
lines, the joined block is stripped of leading/trailing whitespace (Python's
`txt.strip()`).  On blocks whose first line has no leading and whose last
line has no trailing whitespace the strip is the identity, so the claim's
description is otherwise exact: byte-identical marker+header first, sections
in the fixed order Changed, Added, Removed, each emitted only if its mapping
is non-empty. -/
theorem generate_message_amended_spec (changed : List (String × Change))
    (added removed : List (String × String)) :
    generateMessage changed added removed = generateMessageAmended changed added removed :=
  generateMessage_structure changed added removed

/-- C5 (counterexample).  For the changed mapping `{" a": {base:"1",
head:"2"}}` the code's `txt.strip()` removes the leading space of the line
`" a 1 => 2"`, so the rendered message differs from the claim's
join-of-sorted-lines description. -/
theorem generate_message_strip_deviates_from_claim :
    generateMessage [(" a", ⟨"1", "2"⟩)] [] [] ≠
      generateMessageClaimed [(" a", ⟨"1", "2"⟩)] [] [] := by
  decide

/-- C6.  `get_added_deps base head` and `get_removed_deps head base` are the
same mapping: both select the entries of the head (respectively second)
argument whose key is absent from the other mapping, in insertion order. -/
theorem added_removed_symmetric (base_deps head_deps : List (String × String)) :
    getAddedDeps base_deps head_deps = getRemovedDeps head_deps base_deps := rfl

/-- C7.  The version descriptor of a lockfile entry: a present `version`
field wins over any `ref` field and is used with a single leading `"=="`
stripped; with only a `ref` field the descriptor is exactly the first 7
characters of the ref; and `"==1.2.3"` and `"1.2.3"` both strip to
`"1.2.3"`. -/
theorem parse_dep_entry_version_descriptor :
    (∀ (mr : Option String) (v : String),
      parseDepEntry ⟨some v, mr⟩ = some (stripEqEq v)) ∧
    (∀ r : String, parseDepEntry ⟨none, some r⟩ = some ⟨r.data.take 7⟩) ∧
    stripEqEq "==1.2.3" = "1.2.3" ∧ stripEqEq "1.2.3" = "1.2.3" := by
  refine ⟨fun mr v => ?_, fun r => rfl, by decide, by decide⟩
  cases mr <;> rfl

/-- C8.  `parse_pipfile_lock` merges the `"default"` and `"develop"` groups
into one mapping keyed by dependency name: a name present in `"develop"`
(processed second) gets the develop entry's descriptor, overwriting any
default entry; a name present only in `"default"` gets the default entry's
descriptor; a name in neither group is absent. -/
theorem parse_pipfile_lock_merge_precedence (data : LockData)
    (deps : List (String × String))
    (hdef : (data.default.map Prod.fst).Nodup)
    (hdev : (data.develop.map Prod.fst).Nodup)
    (hp : parsePipfileLock data = some deps) :
    (∀ name meta, depLookup name data.develop = some meta →
      depLookup name deps = parseDepEntry meta) ∧
    (∀ name meta, depLookup name data.develop = none →
      depLookup name data.default = some meta →
      depLookup name deps = parseDepEntry meta) ∧
    (∀ name, depLookup name data.develop = none →
      depLookup name data.default = none → depLookup name deps = none) := by
  unfold parsePipfileLock at hp
  cases h1 : parseGroup [] data.default with
  | none => rw [h1] at hp; simp at hp
  | some d1 =>
    rw [h1] at hp
    refine ⟨fun name meta hdevl => parseGroup_lookup_mem hp hdev hdevl,
      fun name meta hdevn hdefl => ?_, fun name hdevn hdefn => ?_⟩
    · rw [parseGroup_lookup_not_mem hp hdevn]
      exact parseGroup_lookup_mem h1 hdef hdefl
    · rw [parseGroup_lookup_not_mem hp hdevn, parseGroup_lookup_not_mem h1 hdefn]
      rfl

/-- C8 (witness).  Both groups of `dataAB` pin `a` (default: 1, develop: 2);
the merged mapping holds the develop descriptor, and `b` is absent. -/
theorem parse_pipfile_lock_merge_precedence_witness :
    depLookup "a" [("a", "2")] = parseDepEntry (entryV "2") ∧
    depLookup "b" [("a", "2")] = (none : Option String) :=
  ⟨(parse_pipfile_lock_merge_precedence dataAB [("a", "2")] (by decide) (by decide)
      rfl).1 "a" (entryV "2") (by decide),
   (parse_pipfile_lock_merge_precedence dataAB [("a", "2")] (by decide) (by decide)
      rfl).2.2 "b" (by decide) (by decide)⟩

/-- C9.  If either lockfile parse fails (missing/unreadable/invalid document
— `baseDoc`/`headDoc` is `none` — or a dependency entry without `version` and
`ref`), the run aborts as fatal: the process exits non-zero and no comment is
posted or edited. -/
theorem parse_failure_aborts_run (env : RunEnv)
    (h : env.baseDoc.bind parsePipfileLock = none ∨
      env.headDoc.bind parsePipfileLock = none) :
    run env = .fatal ∧ commentCall (run env) = none ∧
    processExitCode (run env) ≠ 0 := by
  have hrun : run env = .fatal := by
    obtain ⟨fe, cbe, obd, che, ohd⟩ := env
    rcases h with h | h
    · cases obd with
      | none => rfl
      | some bdoc =>
        have hpb : parsePipfileLock bdoc = none := by simpa using h
        simp [run, hpb]
    · cases obd with
      | none => rfl
      | some bdoc =>
        cases hpb : parsePipfileLock bdoc with
        | none => simp [run, hpb]
        | some base =>
          cases ohd with
          | none => simp [run, hpb]
          | some hdoc =>
            have hph : parsePipfileLock hdoc = none := by simpa using h
            simp [run, hpb, hph]
  exact ⟨hrun, by rw [hrun]; rfl, by rw [hrun]; decide⟩

/-- C9 (witness). -/
theorem parse_failure_aborts_run_witness :
    run envBadLock = .fatal ∧ commentCall (run envBadLock) = none ∧
    processExitCode (run envBadLock) ≠ 0 :=
  parse_failure_aborts_run envBadLock (Or.inl rfl)

/-- A rendered message for a not-all-empty diff is the header followed by a
non-empty rest. -/
theorem generateMessage_decomp (c : List (String × Change))
    (a r : List (String × String)) (h : ¬(c = [] ∧ a = [] ∧ r = [])) :
    ∃ rest, generateMessage c a r = headerStr ++ rest ∧ rest ≠ "" := by
  rw [generateMessage_structure]
  unfold generateMessageAmended
  rw [strAppend_assoc, strAppend_assoc]
  refine ⟨_, rfl, ?_⟩
  intro hrest
  rw [strAppend_eq_empty_iff] at hrest
  obtain ⟨h1, hrest⟩ := hrest
  rw [strAppend_eq_empty_iff] at hrest
  obtain ⟨h2, h3⟩ := hrest
  refine h ⟨?_, ?_, ?_⟩
  · by_contra hc
    have hbe : c.isEmpty = false := by
      cases c
      · exact absurd rfl hc
      · rfl
    rw [if_neg (by simp [hbe])] at h1
    exact sectionBlock_ne_empty _ _ h1
  · by_contra hc
    have hbe : a.isEmpty = false := by
      cases a
      · exact absurd rfl hc
      · rfl
    rw [if_neg (by simp [hbe])] at h2
    exact sectionBlock_ne_empty _ _ h2
  · by_contra hc
    have hbe : r.isEmpty = false := by
      cases r
      · exact absurd rfl hc
      · rfl
    rw [if_neg (by simp [hbe])] at h3
    exact sectionBlock_ne_empty _ _ h3

/-- C10.  For mappings (duplicate-free keys) that are not equal as dicts, at
least one of changed/added/removed is non-empty; consequently every message
the orchestrator posts is the marker+header followed by a non-empty rest
(at least one section), never the bare marker and header. -/
theorem diff_nonempty_and_message_nontrivial :
    (∀ base head : List (String × String),
      (base.map Prod.fst).Nodup → (head.map Prod.fst).Nodup →
      dictEq head base = false →
      ¬(getChangedDeps base head = [] ∧ getAddedDeps base head = [] ∧
        getRemovedDeps base head = [])) ∧
    (∀ env msg, run env = .posted msg →
      ∃ rest, msg = headerStr ++ rest ∧ rest ≠ "" ∧ msg ≠ headerStr) := by
  constructor
  · intro base head _ hhn hne
    exact diff_lists_not_all_empty base head hhn hne
  · intro env msg hrun
    obtain ⟨base, head, ⟨bdoc, hb, hpb⟩, ⟨hdoc, hh, hph⟩, hne, hmsg⟩ :=
      run_posted_inversion hrun
    have hhn := parsePipfileLock_nodupKeys hph
    have hnx := diff_lists_not_all_empty base head hhn hne
    obtain ⟨rest, hg, hrne⟩ := generateMessage_decomp _ _ _ hnx
    refine ⟨rest, hmsg.trans hg, hrne, ?_⟩
    intro hmh
    exact hrne (strAppend_right_eq_self ((hmsg.trans hg).symm.trans hmh))

/-- C10 (witness). -/
theorem diff_nonempty_and_message_nontrivial_witness :
    (¬(getChangedDeps [("foo", "1.0.0")] [("foo", "2.0.0")] = [] ∧
       getAddedDeps [("foo", "1.0.0")] [("foo", "2.0.0")] = [] ∧
       getRemovedDeps [("foo", "1.0.0")] [("foo", "2.0.0")] = [])) ∧
    (∃ rest, msgFooChanged = headerStr ++ rest ∧ rest ≠ "" ∧
      msgFooChanged ≠ headerStr) :=
  ⟨diff_nonempty_and_message_nontrivial.1 [("foo", "1.0.0")] [("foo", "2.0.0")]
      (by decide) (by decide) (by decide),
   diff_nonempty_and_message_nontrivial.2 envPost msgFooChanged (by decide)⟩
